import Mathlib

/-!
Verification of the FileScope background file-indexing and duplicate-detection
engine (src/App/FileScope.py) against its natural-language specification.

The Python engine is shallowly embedded: each relevant method is translated
into an executable Lean function over explicit data.  Filesystem effects
(os.stat, os.walk, os.remove, hashing, the SQLite store) are modelled by
explicit inputs: the walk is a list of visited entries, stat results are
fields of those entries or functions from paths, the store is a list of
records keyed by path, and per-path fallibility is an Option result.
Modification times are integers (seconds); sizes are naturals.
-/

namespace FileScope

/-! ## String helpers

Python's `str.lower` and the substring operator `needle in hay` are modelled
over `List Char` (ASCII-faithful).  `String.toLower` from the core library is
avoided because it does not reduce inside the kernel. -/

/-- Lower-case a string character by character (model of Python `str.lower()`). -/
def lowerStr (s : String) : String :=
  String.mk (s.toList.map Char.toLower)

/-- `leadsWith needle hay` is true when `needle` occurs at the start of `hay`. -/
def leadsWith : List Char → List Char → Bool
  | [], _ => true
  | _ :: _, [] => false
  | a :: as, b :: bs => a = b && leadsWith as bs

/-- `hasSubList hay needle`: `needle` occurs contiguously somewhere in `hay`
(model of Python `needle in hay` on strings). -/
def hasSubList (hay needle : List Char) : Bool :=
  match hay with
  | [] => needle.isEmpty
  | _ :: t => leadsWith needle hay || hasSubList t needle

/-- `strContains hay pat`: `pat` is a substring of `hay`. -/
def strContains (hay pat : String) : Bool :=
  hasSubList hay.toList pat.toList

/-! ## Data model (FileScope.py, `FileEntry` / `DuplicateFile` / `DuplicateGroup`) -/

/-- One indexed filesystem entry (dataclass `FileEntry`). -/
structure FileEntry where
  name : String
  path : String
  extension : String
  size : Nat
  modified : Int
  is_dir : Bool
deriving DecidableEq

/-- One file in a duplicate group (dataclass `DuplicateFile`); `hash` is set
only by the deep scanner. -/
structure DuplicateFile where
  name : String
  path : String
  size : Nat
  modified : Int
  hash : Option String
deriving DecidableEq

/-- A group of duplicate files (dataclass `DuplicateGroup`). -/
structure DuplicateGroup where
  key : String
  files : List DuplicateFile
deriving DecidableEq

/-- `DuplicateGroup.total_size`: sum of the member sizes. -/
def DuplicateGroup.total_size (g : DuplicateGroup) : Nat :=
  (g.files.map (fun f => f.size)).sum

/-- `DuplicateGroup.count`: number of members. -/
def DuplicateGroup.countFiles (g : DuplicateGroup) : Nat :=
  g.files.length

/-- `DuplicateGroup.wasted_space`: the Python method sorts the member sizes in
descending order and sums all but the first. -/
def DuplicateGroup.wasted_space (g : DuplicateGroup) : Nat :=
  if g.files.length ≤ 1 then 0
  else (((g.files.map (fun f => f.size)).insertionSort (· ≥ ·)).tail).sum

/-- Largest member size of a group (0 for an empty group). -/
def maxMemberSize (g : DuplicateGroup) : Nat :=
  (g.files.map (fun f => f.size)).foldr max 0

/-! ### Lemmas about `foldr max 0` and descending sorts -/

theorem le_foldrMax_of_mem {l : List Nat} {x : Nat} (hx : x ∈ l) :
    x ≤ l.foldr max 0 := by
  induction l with
  | nil => cases hx
  | cons a t ih =>
    rcases List.mem_cons.mp hx with h | h
    · subst h; exact Nat.le_max_left _ _
    · exact le_trans (ih h) (Nat.le_max_right _ _)

theorem foldrMax_mem {l : List Nat} (h : l ≠ []) : l.foldr max 0 ∈ l := by
  induction l with
  | nil => exact absurd rfl h
  | cons a t ih =>
    cases t with
    | nil => simp
    | cons b t' =>
      have hfold : (a :: b :: t').foldr max 0 = max a ((b :: t').foldr max 0) := rfl
      rcases max_choice a ((b :: t').foldr max 0) with hm | hm
      · rw [hfold, hm]; exact List.mem_cons_self _ _
      · rw [hfold, hm]; exact List.mem_cons_of_mem _ (ih (by simp))

/-- The head of the descending sort of a nonempty list is its maximum. -/
theorem head_insertionSort_eq_max {l : List Nat} {a : Nat} {t : List Nat}
    (hs : l.insertionSort (· ≥ ·) = a :: t) : a = l.foldr max 0 := by
  have hperm := List.perm_insertionSort (α := Nat) (· ≥ ·) l
  have hsorted := List.sorted_insertionSort (α := Nat) (· ≥ ·) l
  rw [hs] at hperm hsorted
  have hne : l ≠ [] := by
    intro h
    subst h
    exact absurd hperm.symm (by simp)
  have hmem : l.foldr max 0 ∈ a :: t := hperm.mem_iff.mpr (foldrMax_mem hne)
  have hle : a ≤ l.foldr max 0 :=
    le_foldrMax_of_mem (hperm.mem_iff.mp (List.mem_cons_self a t))
  have hge : l.foldr max 0 ≤ a := by
    rcases List.mem_cons.mp hmem with h | h
    · omega
    · exact List.rel_of_sorted_cons hsorted _ h
  omega

/-- C5 example group with member sizes {100, 100, 300}. -/
def exampleGroupC5 : DuplicateGroup :=
  { key := "k"
    files := [ { name := "a", path := "/a", size := 100, modified := 0, hash := none }
             , { name := "b", path := "/b", size := 100, modified := 0, hash := none }
             , { name := "c", path := "/c", size := 300, modified := 0, hash := none } ] }

/-- C5: for a group with at least 2 members, `wasted_space` is the sum of all
member sizes except the single largest, i.e. `total_size` minus the maximum
member size; for a group with at most 1 member it is 0; the group with sizes
{100, 100, 300} yields 200. -/
theorem wasted_space_correct (g : DuplicateGroup) :
    (2 ≤ g.files.length → g.wasted_space = g.total_size - maxMemberSize g)
    ∧ (g.files.length ≤ 1 → g.wasted_space = 0)
    ∧ exampleGroupC5.wasted_space = 200 := by
  refine ⟨?_, ?_, by decide⟩
  · intro h2
    have hlen : ¬ g.files.length ≤ 1 := by omega
    unfold DuplicateGroup.wasted_space
    rw [if_neg hlen]
    set l := g.files.map (fun f => f.size) with hl
    have hperm := List.perm_insertionSort (α := Nat) (· ≥ ·) l
    have hlenl : l.length = g.files.length := by simp [hl]
    cases hs : l.insertionSort (· ≥ ·) with
    | nil =>
      have := hperm.length_eq
      rw [hs] at this
      simp at this
      omega
    | cons a t =>
      have hmax : a = maxMemberSize g := head_insertionSort_eq_max hs
      have hsum : a + t.sum = g.total_size := by
        have := hperm.sum_eq
        rw [hs] at this
        simpa [DuplicateGroup.total_size, hl] using this
      simp only [List.tail_cons]
      omega
  · intro h1
    unfold DuplicateGroup.wasted_space
    rw [if_pos h1]

/-- Witness for C5 at the {100, 100, 300} group. -/
theorem wasted_space_correct_witness :
    2 ≤ exampleGroupC5.files.length
    ∧ exampleGroupC5.wasted_space = exampleGroupC5.total_size - maxMemberSize exampleGroupC5 :=
  ⟨by decide, (wasted_space_correct exampleGroupC5).1 (by decide)⟩

/-! ## Indexer run branch (SystemIndexerThread.run)

`run` loads the cached index when no full index was forced; it serves the
cache and schedules `incremental_update` only when strictly more than 1000
records were cached, and otherwise calls `full_index`. -/

/-- Which path `SystemIndexerThread.run` takes after loading the cache. -/
inductive IndexerAction where
  | serveCacheIncremental
  | fullScan
deriving DecidableEq

/-- Branch decision of `SystemIndexerThread.run` (lines 806-835): with no
forced full index, the cached snapshot is served (followed by an incremental
update) exactly when `len(cached_files) > 1000`. -/
def indexerRunBranch (force_full_index : Bool) (cached_files : List FileEntry) :
    IndexerAction :=
  if force_full_index then .fullScan
  else if 1000 < cached_files.length then .serveCacheIncremental
  else .fullScan

/-- A cached snapshot with exactly 1000 entries. -/
def cacheAt1000 : List FileEntry :=
  List.replicate 1000
    { name := "f", path := "/f", extension := "", size := 1, modified := 0, is_dir := false }

/-- C4 counterexample: with exactly 1000 cached entries (not fewer than 1000),
the indexer still performs a full scan, contradicting the claim that a full
scan happens if and only if the cache has fewer than 1000 entries. -/
theorem indexer_threshold_boundary :
    indexerRunBranch false cacheAt1000 = IndexerAction.fullScan
    ∧ ¬ cacheAt1000.length < 1000 := by
  have hlen : cacheAt1000.length = 1000 := by
    rw [cacheAt1000, List.length_replicate]
  constructor
  · unfold indexerRunBranch
    rw [if_neg (by simp : ¬ (false = true)),
        if_neg (by rw [hlen]; omega : ¬ 1000 < cacheAt1000.length)]
  · rw [hlen]
    omega

/-- C4 (amended): on a run without a forced full index, the indexer performs a
full scan if and only if the cached snapshot has at most 1000 entries, and
serves the cached snapshot (then refines incrementally) if and only if the
cache has strictly more than 1000 entries. -/
theorem indexer_threshold_correct (cached : List FileEntry) :
    (indexerRunBranch false cached = IndexerAction.fullScan ↔ cached.length ≤ 1000)
    ∧ (indexerRunBranch false cached = IndexerAction.serveCacheIncremental
        ↔ 1000 < cached.length) := by
  unfold indexerRunBranch
  by_cases h : 1000 < cached.length
  · rw [if_neg Bool.false_ne_true, if_pos h]
    constructor
    · constructor
      · intro he; cases he
      · intro hle; omega
    · simp [h]
  · rw [if_neg Bool.false_ne_true, if_neg h]
    constructor
    · constructor
      · intro _; omega
      · intro _; rfl
    · constructor
      · intro he; cases he
      · intro hlt; omega

/-! ## Search thread (FileSearchThread.run)

The query and the folder filter are lower-cased at construction.  The loop
emits matching records in batches of 100; afterwards the *total* is recomputed
as `len([r for r in self.index if self.query in r.name.lower()])`, which
tests only the name predicate and ignores the folder filter. -/

/-- Name predicate of the search loop: lower-cased query occurs in the
lower-cased record name. -/
def searchNameHit (q : String) (e : FileEntry) : Bool :=
  strContains (lowerStr e.name) q

/-- Full per-record predicate of the search loop (name match, and folder
filter empty or occurring in the lower-cased path). -/
def searchFullHit (q fl : String) (e : FileEntry) : Bool :=
  searchNameHit q e && (fl == "" || strContains (lowerStr e.path) fl)

/-- Batch-building loop of `FileSearchThread.run`: append each full hit to the
buffer and emit a batch whenever the buffer length reaches a multiple of 100. -/
def searchGo (q fl : String) :
    List FileEntry → List (List FileEntry) → List FileEntry →
    List (List FileEntry) × List FileEntry
  | [], batches, buf => (batches, buf)
  | e :: rest, batches, buf =>
    if searchFullHit q fl e then
      let buf' := buf ++ [e]
      if buf'.length % 100 == 0 then searchGo q fl rest (batches ++ [buf']) []
      else searchGo q fl rest batches buf'
    else searchGo q fl rest batches buf

/-- `FileSearchThread.run` on a snapshot: returns the emitted result batches
and the total reported by `search_complete` (which recounts using only the
name predicate). -/
def searchRun (index : List FileEntry) (query folder_filter : String) :
    List (List FileEntry) × Nat :=
  let q := lowerStr query
  let fl := lowerStr folder_filter
  let (batches, buf) := searchGo q fl index [] []
  let batches' := if buf.isEmpty then batches else batches ++ [buf]
  (batches', (index.filter (fun e => searchNameHit q e)).length)

/-- The number of records satisfying the full search predicate. -/
def searchMatchCount (index : List FileEntry) (query folder_filter : String) : Nat :=
  index.countP (searchFullHit (lowerStr query) (lowerStr folder_filter))

/-- C1 failing input: one record whose name matches the query but whose path
does not contain the folder filter. -/
def entryC1 : FileEntry :=
  { name := "alpha.txt", path := "/docs/alpha.txt", extension := ".txt"
    size := 10, modified := 0, is_dir := false }

/-- C1 (code bug): with query "alpha" and folder filter "music" over the
single record `/docs/alpha.txt`, the search emits `search_complete` with
total 1 although 0 records satisfy the full predicate and no result batch
was emitted — the recount on line 1055 ignores the folder filter. -/
theorem search_total_ignores_folder_filter :
    (searchRun [entryC1] "alpha" "music").2 = 1
    ∧ searchMatchCount [entryC1] "alpha" "music" = 0
    ∧ (searchRun [entryC1] "alpha" "music").1 = [] := by decide

/-! ## Fast-mode filename normalization
(FastDuplicateScannerThread.normalize_filename, lines 1145-1174)

The Python method splits off the extension with `os.path.splitext`, then
applies six `re.sub(pattern, '', name, flags=re.IGNORECASE)` substitutions in
a fixed order, each anchored at the end of the name, and finally lower-cases
the result when the scanner is case-insensitive (`sys.platform == 'win32'`).
Each stage below reproduces one regex, including the leftmost-match rule
(`\s*` consumes the maximal run of whitespace before the literal part). -/

/-- Python `\s` on ASCII text. -/
def isWs (c : Char) : Bool :=
  c = ' ' || c = '\t' || c = '\n' || c = '\r' || c = '\x0b' || c = '\x0c'

/-- `os.path.splitext` for a bare filename (no directory separators): split at
the last dot, unless every character before that dot is itself a dot. -/
def splitext (s : String) : String × String :=
  let cs := s.toList
  let suff := cs.reverse.takeWhile (fun c => c ≠ '.')
  if suff.length = cs.length then (s, "")
  else
    let i := cs.length - suff.length - 1
    if (cs.take i).all (fun c => c = '.') then (s, "")
    else (String.mk (cs.take i), String.mk (cs.drop i))

/-- Reversed lower-cased "Copy", for matching the literal `Copy` case-insensitively
from the end of the name. -/
def revCopyLower (c1 c2 c3 c4 : Char) : Bool :=
  c1.toLower = 'y' && c2.toLower = 'p' && c3.toLower = 'o' && c4.toLower = 'c'

/-- Stage 1, `re.sub(r'\s*\(\d+\)$', '', name)`. -/
def stripParenNum (name : List Char) : List Char :=
  match name.reverse with
  | ')' :: t =>
    let ds := t.takeWhile Char.isDigit
    if ds.isEmpty then name
    else
      match t.drop ds.length with
      | '(' :: t3 => (t3.dropWhile isWs).reverse
      | _ => name
  | _ => name

/-- Stage 2, `re.sub(r'\s*-\s*Copy$', '', name, flags=IGNORECASE)`. -/
def stripDashCopy (name : List Char) : List Char :=
  match name.reverse with
  | c1 :: c2 :: c3 :: c4 :: t =>
    if revCopyLower c1 c2 c3 c4 then
      match t.dropWhile isWs with
      | '-' :: t2 => (t2.dropWhile isWs).reverse
      | _ => name
    else name
  | _ => name

/-- Stage 3, `re.sub(r'\s*Copy$', '', name, flags=IGNORECASE)` (the whitespace
is optional, so any name ending in "copy" is stripped). -/
def stripWsCopy (name : List Char) : List Char :=
  match name.reverse with
  | c1 :: c2 :: c3 :: c4 :: t =>
    if revCopyLower c1 c2 c3 c4 then (t.dropWhile isWs).reverse
    else name
  | _ => name

/-- Stage 4, `re.sub(r'_copy$', '', name, flags=IGNORECASE)`. -/
def stripUnderscoreCopy (name : List Char) : List Char :=
  match name.reverse with
  | c1 :: c2 :: c3 :: c4 :: '_' :: t =>
    if revCopyLower c1 c2 c3 c4 then t.reverse else name
  | _ => name

/-- Stage 5, `re.sub(r'\s*-\s*\d+$', '', name)`. -/
def stripDashNum (name : List Char) : List Char :=
  let rev := name.reverse
  let ds := rev.takeWhile Char.isDigit
  if ds.isEmpty then name
  else
    match (rev.drop ds.length).dropWhile isWs with
    | '-' :: t2 => (t2.dropWhile isWs).reverse
    | _ => name

/-- Stage 6, `re.sub(r'_\d+$', '', name)`. -/
def stripUnderscoreNum (name : List Char) : List Char :=
  let rev := name.reverse
  let ds := rev.takeWhile Char.isDigit
  if ds.isEmpty then name
  else
    match rev.drop ds.length with
    | '_' :: t => t.reverse
    | _ => name

/-- `FastDuplicateScannerThread.normalize_filename`: split off the extension,
run the six substitution stages in order, and lower-case name and extension
when the scanner is case-insensitive. -/
def normalize_filename (case_sensitive : Bool) (filename : String) : String :=
  let (name, ext) := splitext filename
  let n := stripUnderscoreNum (stripDashNum (stripUnderscoreCopy
             (stripWsCopy (stripDashCopy (stripParenNum name.toList)))))
  if case_sensitive then String.mk n ++ ext
  else lowerStr (String.mk n) ++ lowerStr ext

/-- C2 (code bug): `"report_copy.txt"` normalizes to `"report_.txt"`, not to
`"report.txt"` as the claim, the spec and the method's own docstring state:
the stage-3 pattern `\s*Copy$` (whose whitespace is optional) strips the
trailing "copy" before the `_copy$` stage can match, leaving the underscore.
The other documented examples do hold. -/
theorem normalize_underscore_copy_bug :
    normalize_filename true "report_copy.txt" = "report_.txt"
    ∧ normalize_filename true "report_copy.txt" ≠ "report.txt"
    ∧ normalize_filename true "report (1).txt" = "report.txt"
    ∧ normalize_filename true "report - Copy.txt" = "report.txt"
    ∧ normalize_filename true "report2.txt" = "report2.txt" := by decide

/-! ## Deletion executor (FileDeletionThread.run, lines 1314-1342)

The run loop checks `os.path.exists`, then `os.access(..., W_OK)`, then calls
`os.remove`; the first two failures `continue` (skipping the progress emit),
a raising `os.remove` falls through to the progress emit.  The filesystem is
modelled by three Boolean oracles on paths. -/

/-- Filesystem oracle for the deletion thread: whether a path exists, is
writable, and whether `os.remove` succeeds (rather than raising). -/
structure DelEnv where
  pathLives : String → Bool
  writable : String → Bool
  removeOk : String → Bool

/-- A deletion attempt fully succeeds: the file exists, is writable, and the
remove call succeeds. -/
def delAttemptOk (env : DelEnv) (f : DuplicateFile) : Bool :=
  env.pathLives f.path && env.writable f.path && env.removeOk f.path

/-- A deletion attempt reaches the `os.remove` call (file exists and is
writable), which is exactly when the code emits a progress event. -/
def delReachesRemove (env : DelEnv) (f : DuplicateFile) : Bool :=
  env.pathLives f.path && env.writable f.path

/-- Loop body of `FileDeletionThread.run` from index `i` on: returns
`(deleted_count, failed_count, progress events)`, each event being the
`(i + 1, total)` pair passed to `progress.emit`. -/
def deletionGo (env : DelEnv) (total : Nat) :
    Nat → List DuplicateFile → Nat × Nat × List (Nat × Nat)
  | _, [] => (0, 0, [])
  | i, f :: rest =>
    let r := deletionGo env total (i+1) rest
    if !env.pathLives f.path then (r.1, r.2.1 + 1, r.2.2)
    else if !env.writable f.path then (r.1, r.2.1 + 1, r.2.2)
    else if env.removeOk f.path then (r.1 + 1, r.2.1, (i+1, total) :: r.2.2)
    else (r.1, r.2.1 + 1, (i+1, total) :: r.2.2)

/-- `FileDeletionThread.run` on a batch (run to completion, no cancellation);
`deletion_complete` carries the first two components. -/
def deletionRun (env : DelEnv) (files : List DuplicateFile) :
    Nat × Nat × List (Nat × Nat) :=
  deletionGo env files.length 0 files

theorem deletionGo_counts (env : DelEnv) (total : Nat) (files : List DuplicateFile) :
    ∀ i, (deletionGo env total i files).1 = files.countP (delAttemptOk env)
      ∧ (deletionGo env total i files).2.1 = files.countP (fun f => !delAttemptOk env f) := by
  induction files with
  | nil => intro i; simp [deletionGo]
  | cons f rest ih =>
    intro i
    rcases ih (i+1) with ⟨hd, hf⟩
    by_cases h1 : env.pathLives f.path
    · by_cases h2 : env.writable f.path
      · by_cases h3 : env.removeOk f.path
        · simp [deletionGo, List.countP_cons, delAttemptOk, h1, h2, h3, hd, hf]
        · simp [deletionGo, List.countP_cons, delAttemptOk, h1, h2, h3, hd, hf]
      · simp [deletionGo, List.countP_cons, delAttemptOk, h1, h2, hd, hf]
    · simp [deletionGo, List.countP_cons, delAttemptOk, h1, hd, hf]

/-- Environment for the C7 example batch: `/gone` does not exist, everything
else is deletable. -/
def envC7 : DelEnv :=
  { pathLives := fun p => p != "/gone", writable := fun _ => true, removeOk := fun _ => true }

/-- The non-existent file of the C7/C8 examples. -/
def fileGoneC7 : DuplicateFile :=
  { name := "gone", path := "/gone", size := 1, modified := 0, hash := none }

/-- The valid deletable file of the C7 example. -/
def fileOkC7 : DuplicateFile :=
  { name := "ok", path := "/ok", size := 1, modified := 0, hash := none }

/-- C7: in a completed deletion batch a file is deleted iff it exists, is
writable and the remove call succeeds; every other attempt increments the
failure counter and the batch continues, so deleted + failed covers the whole
batch; the terminal report for one non-existent plus one deletable file is
`(deleted=1, failed=1)`. -/
theorem deletion_run_counts (env : DelEnv) (files : List DuplicateFile) :
    (deletionRun env files).1 = files.countP (delAttemptOk env)
    ∧ (deletionRun env files).2.1 = files.countP (fun f => !delAttemptOk env f)
    ∧ (deletionRun env files).1 + (deletionRun env files).2.1 = files.length
    ∧ (deletionRun envC7 [fileGoneC7, fileOkC7]).1 = 1
    ∧ (deletionRun envC7 [fileGoneC7, fileOkC7]).2.1 = 1 := by
  rcases deletionGo_counts env files.length files 0 with ⟨hd, hf⟩
  refine ⟨hd, hf, ?_, by decide, by decide⟩
  show (deletionGo env files.length 0 files).1 + (deletionGo env files.length 0 files).2.1
        = files.length
  have hsplit : ∀ l : List DuplicateFile,
      l.countP (delAttemptOk env) + l.countP (fun f => !delAttemptOk env f) = l.length := by
    intro l
    induction l with
    | nil => simp
    | cons a t ih =>
      simp only [List.countP_cons, List.length_cons]
      by_cases h : delAttemptOk env a
      · simp [h]
        omega
      · simp [h]
        omega
  rw [hd, hf, hsplit files]

/-- Environment for the C8 counterexample: no path exists. -/
def envC8 : DelEnv :=
  { pathLives := fun _ => false, writable := fun _ => true, removeOk := fun _ => true }

/-- C8 counterexample: a batch of one non-existent file runs to completion but
emits no progress event at all, refuting the claim that a completed batch of
`n` files emits exactly `n` events with the i-th carrying `(i, n)`. -/
theorem deletion_progress_missing :
    (deletionRun envC8 [fileGoneC7]).2.2 = []
    ∧ ¬ (deletionRun envC8 [fileGoneC7]).2.2 = [(1, 1)] := by decide

theorem deletionGo_events (env : DelEnv) (total : Nat) (files : List DuplicateFile) :
    ∀ i, (deletionGo env total i files).2.2 =
      ((files.enumFrom i).filter (fun p => delReachesRemove env p.2)).map
        (fun p => (p.1 + 1, total)) := by
  induction files with
  | nil => intro i; simp [deletionGo]
  | cons f rest ih =>
    intro i
    have h := ih (i+1)
    by_cases h1 : env.pathLives f.path
    · by_cases h2 : env.writable f.path
      · by_cases h3 : env.removeOk f.path
        · simp [deletionGo, List.enumFrom_cons, delReachesRemove, h1, h2, h3, h]
        · simp [deletionGo, List.enumFrom_cons, delReachesRemove, h1, h2, h3, h]
      · simp [deletionGo, List.enumFrom_cons, delReachesRemove, h1, h2, h]
    · simp [deletionGo, List.enumFrom_cons, delReachesRemove, h1, h]

/-- C8 (amended): a completed deletion batch emits one progress event per
attempt that reaches the remove step (the file exists and is writable),
carrying `(i, n)` for that attempt's 1-based position — whether the remove
succeeds or raises; attempts skipped at the existence or writability check
emit no progress event. -/
theorem deletion_progress_on_reached (env : DelEnv) (files : List DuplicateFile) :
    (deletionRun env files).2.2 =
      ((files.enum.filter (fun p => delReachesRemove env p.2)).map
        (fun p => (p.1 + 1, files.length))) := by
  rw [deletionRun, deletionGo_events env files.length files 0, List.enum]

/-! ## Deep duplicate scanner (DeepDuplicateScannerThread.run, lines 1199-1275)

Phase 1 buckets the walked files by exact size (`defaultdict(list)`), skipping
zero-byte files; Phase 2 hashes only files from buckets with at least two
members, buckets the results by digest, and keeps the digest groups with at
least two members.  The filesystem is modelled by the ordered list of walked
paths plus size/mtime oracles, and hashing by an `Option`-valued oracle
(`none` = the per-file hashing failure swallowed by the `except` branch). -/

/-- Insertion-ordered grouping table: append `v` to the bucket of `k`, or open
a new bucket at the end (model of `defaultdict(list)`; `dict` preserves key
insertion order in Python). -/
def upsert {κ α : Type} [DecidableEq κ] :
    List (κ × List α) → κ → α → List (κ × List α)
  | [], k, v => [(k, [v])]
  | g :: rest, k, v =>
    if g.1 = k then (g.1, g.2 ++ [v]) :: rest else g :: upsert rest k v

/-- Every member of every bucket satisfies `P` of its bucket key. -/
def GroupInv {κ α : Type} (P : κ → α → Prop) (m : List (κ × List α)) : Prop :=
  ∀ g ∈ m, ∀ v ∈ g.2, P g.1 v

theorem groupInv_upsert {κ α : Type} [DecidableEq κ] {P : κ → α → Prop}
    {m : List (κ × List α)} {k : κ} {v : α}
    (hm : GroupInv P m) (hv : P k v) : GroupInv P (upsert m k v) := by
  induction m with
  | nil =>
    intro g hg w hw
    simp only [upsert, List.mem_singleton] at hg
    subst hg
    simp only [List.mem_singleton] at hw
    subst hw
    exact hv
  | cons g0 rest ih =>
    intro g hg w hw
    simp only [upsert] at hg
    by_cases hk : g0.1 = k
    · rw [if_pos hk] at hg
      rcases List.mem_cons.mp hg with rfl | h
      · rcases List.mem_append.mp hw with h2 | h2
        · exact hm g0 (List.mem_cons_self _ _) w h2
        · simp only [List.mem_singleton] at h2
          subst h2
          exact hk ▸ hv
      · exact hm g (List.mem_cons_of_mem _ h) w hw
    · rw [if_neg hk] at hg
      rcases List.mem_cons.mp hg with rfl | h
      · exact hm g (List.mem_cons_self _ _) w hw
      · exact ih (fun g' hg' => hm g' (List.mem_cons_of_mem _ hg')) g h w hw

/-- Phase 1 of the deep scan: bucket walked paths by exact byte size, skipping
zero-byte files (`if stat.st_size > 0`). -/
def sizeMap (walk : List String) (sz : String → Nat) : List (Nat × List String) :=
  walk.foldl (fun m p => if 0 < sz p then upsert m (sz p) p else m) []

/-- The paths the deep scan hashes: all members of size buckets with at least
two members, in bucket order (`files_to_hash`, line 1235). -/
def filesToHash (walk : List String) (sz : String → Nat) : List String :=
  (sizeMap walk sz).foldr (fun b acc => if 1 < b.2.length then b.2 ++ acc else acc) []

/-- `os.path.basename` for POSIX-style paths. -/
def basenameOf (p : String) : String :=
  String.mk ((p.toList.reverse.takeWhile (fun c => c ≠ '/')).reverse)

/-- The `DuplicateFile` the deep scanner builds after hashing a path. -/
def mkDeepFile (sz : String → Nat) (mt : String → Int) (h : String) (p : String) :
    DuplicateFile :=
  { name := basenameOf p, path := p, size := sz p, modified := mt p, hash := some h }

/-- Phase 2 of the deep scan: hash each candidate (skipping hash failures) and
bucket the resulting records by digest (`hash_map`). -/
def hashGroups (walk : List String) (sz : String → Nat) (mt : String → Int)
    (hashF : String → Option String) : List (String × List DuplicateFile) :=
  (filesToHash walk sz).foldl
    (fun m p =>
      match hashF p with
      | none => m
      | some h => upsert m h (mkDeepFile sz mt h p)) []

/-- `DeepDuplicateScannerThread.run` to completion: the emitted duplicate
groups are the digest buckets with at least two members. -/
def deepScanRun (walk : List String) (sz : String → Nat) (mt : String → Int)
    (hashF : String → Option String) : List (String × List DuplicateFile) :=
  (hashGroups walk sz mt hashF).filter (fun g => 1 < g.2.length)

theorem sizeMap_inv (sz : String → Nat) (walk : List String) :
    GroupInv (fun s p => sz p = s ∧ 0 < s) (sizeMap walk sz) := by
  have main : ∀ (l : List String) (m0 : List (Nat × List String)),
      GroupInv (fun s p => sz p = s ∧ 0 < s) m0 →
      GroupInv (fun s p => sz p = s ∧ 0 < s)
        (l.foldl (fun m p => if 0 < sz p then upsert m (sz p) p else m) m0) := by
    intro l
    induction l with
    | nil =>
      intro m0 h
      simpa using h
    | cons p rest ih =>
      intro m0 h
      simp only [List.foldl_cons]
      by_cases hp : 0 < sz p
      · rw [if_pos hp]
        exact ih _ (groupInv_upsert h ⟨rfl, hp⟩)
      · rw [if_neg hp]
        exact ih _ h
  exact main walk [] (fun g hg => absurd hg (List.not_mem_nil g))

theorem filesToHash_mem {walk : List String} {sz : String → Nat} {p : String}
    (hp : p ∈ filesToHash walk sz) :
    ∃ b ∈ sizeMap walk sz, p ∈ b.2 ∧ 2 ≤ b.2.length ∧ b.1 = sz p ∧ 0 < sz p := by
  have main : ∀ (bs : List (Nat × List String)),
      p ∈ bs.foldr (fun b acc => if 1 < b.2.length then b.2 ++ acc else acc) [] →
      ∃ b ∈ bs, p ∈ b.2 ∧ 2 ≤ b.2.length := by
    intro bs
    induction bs with
    | nil =>
      intro h
      exact absurd h (List.not_mem_nil p)
    | cons b rest ih =>
      intro h
      simp only [List.foldr_cons] at h
      by_cases hb : 1 < b.2.length
      · rw [if_pos hb] at h
        rcases List.mem_append.mp h with h2 | h2
        · exact ⟨b, List.mem_cons_self _ _, h2, by omega⟩
        · rcases ih h2 with ⟨b', hb', h3, h4⟩
          exact ⟨b', List.mem_cons_of_mem _ hb', h3, h4⟩
      · rw [if_neg hb] at h
        rcases ih h with ⟨b', hb', h3, h4⟩
        exact ⟨b', List.mem_cons_of_mem _ hb', h3, h4⟩
  rcases main (sizeMap walk sz) hp with ⟨b, hb, hpb, hlen⟩
  rcases sizeMap_inv sz walk b hb p hpb with ⟨h5, h6⟩
  exact ⟨b, hb, hpb, hlen, h5.symm, by omega⟩

theorem hashGroups_inv (walk : List String) (sz : String → Nat) (mt : String → Int)
    (hashF : String → Option String) :
    GroupInv (fun h f => f.hash = some h ∧ 0 < f.size) (hashGroups walk sz mt hashF) := by
  have main : ∀ (l : List String), (∀ p ∈ l, 0 < sz p) →
      ∀ (m0 : List (String × List DuplicateFile)),
      GroupInv (fun h f => f.hash = some h ∧ 0 < f.size) m0 →
      GroupInv (fun h f => f.hash = some h ∧ 0 < f.size)
        (l.foldl (fun m p =>
          match hashF p with
          | none => m
          | some h => upsert m h (mkDeepFile sz mt h p)) m0) := by
    intro l
    induction l with
    | nil =>
      intro _ m0 h
      simpa using h
    | cons p rest ih =>
      intro hl m0 h
      simp only [List.foldl_cons]
      cases hf : hashF p with
      | none =>
        simp only [hf]
        exact ih (fun q hq => hl q (List.mem_cons_of_mem _ hq)) _ h
      | some hv =>
        simp only [hf]
        exact ih (fun q hq => hl q (List.mem_cons_of_mem _ hq)) _
          (groupInv_upsert h ⟨rfl, hl p (List.mem_cons_self _ _)⟩)
  exact main (filesToHash walk sz)
    (fun p hp => (filesToHash_mem hp).choose_spec.2.2.2.2)
    [] (fun g hg => absurd hg (List.not_mem_nil g))

/-- C6: every group the deep scanner emits has at least 2 members, all members
of one group carry the group's digest as their content hash, no member is a
zero-byte file, and a digest is only ever computed for a path whose exact-size
bucket has at least 2 members. -/
theorem deep_scan_invariants (walk : List String) (sz : String → Nat) (mt : String → Int)
    (hashF : String → Option String) (g : String × List DuplicateFile)
    (hg : g ∈ deepScanRun walk sz mt hashF) :
    2 ≤ g.2.length
    ∧ (∀ f ∈ g.2, f.hash = some g.1 ∧ 0 < f.size)
    ∧ (∀ p ∈ filesToHash walk sz,
        ∃ b ∈ sizeMap walk sz, p ∈ b.2 ∧ 2 ≤ b.2.length ∧ b.1 = sz p) := by
  rcases List.mem_filter.mp hg with ⟨hmem, hlen⟩
  refine ⟨?_, ?_, ?_⟩
  · simp only [decide_eq_true_eq] at hlen
    omega
  · intro f hf
    exact hashGroups_inv walk sz mt hashF g hmem f hf
  · intro p hp
    rcases filesToHash_mem hp with ⟨b, hb, h1, h2, h3, _⟩
    exact ⟨b, hb, h1, h2, h3⟩

/-- Concrete walk for the C6 witness: two files of equal size and content. -/
def walkC6 : List String := ["/d/a", "/d/b"]

/-- Size oracle for the C6 witness. -/
def szC6 : String → Nat := fun _ => 5

/-- Modification-time oracle for the C6 witness. -/
def mtC6 : String → Int := fun _ => 0

/-- Hash oracle for the C6 witness. -/
def hashC6 : String → Option String := fun _ => some "h"

/-- The single group the deep scanner emits on the C6 witness input. -/
def groupC6 : String × List DuplicateFile :=
  ("h", [mkDeepFile szC6 mtC6 "h" "/d/a", mkDeepFile szC6 mtC6 "h" "/d/b"])

/-- Witness for C6 on a concrete two-file scan. -/
theorem deep_scan_invariants_witness :
    2 ≤ groupC6.2.length
    ∧ (∀ f ∈ groupC6.2, f.hash = some groupC6.1 ∧ 0 < f.size)
    ∧ (∀ p ∈ filesToHash walkC6 szC6,
        ∃ b ∈ sizeMap walkC6 szC6, p ∈ b.2 ∧ 2 ≤ b.2.length ∧ b.1 = szC6 p) :=
  deep_scan_invariants walkC6 szC6 mtC6 hashC6 groupC6 (by decide)

/-! ## Incremental indexer (SystemIndexerThread.incremental_update, lines 901-997)

The walk is modelled as drives → directories → visited files, each visited
file carrying the `os.stat` results.  The store (`DatabaseManager`) is a list
of `FileEntry` keyed by `path`; `save_file_index` is INSERT OR REPLACE by
path, `remove_deleted_files` deletes every stored path not in the observed
`existing_paths` set.  The cooperative flag is a schedule `σ : Nat → Bool`
giving the value read by the n-th `self.should_stop` check (checks happen at
consecutive ticks, one per drive/directory/file iteration). -/

/-- A file visit during a walk: the filename and the `os.stat` results. -/
structure WalkFile where
  name : String
  path : String
  size : Nat
  modified : Int
deriving DecidableEq

/-- `DatabaseManager.get_file_info` / membership in `get_indexed_paths`:
first stored record with the given path. -/
def dbFind (db : List FileEntry) (p : String) : Option FileEntry :=
  db.find? (fun e => e.path == p)

/-- The `FileEntry` the indexer builds for a visited file (extension =
lower-cased `os.path.splitext(filename)[1]`). -/
def mkEntry (w : WalkFile) : FileEntry :=
  { name := w.name, path := w.path, extension := lowerStr (splitext w.name).2
    size := w.size, modified := w.modified, is_dir := false }

/-- Outcome of one loop-body visit in `incremental_update`. -/
inductive VisitClass where
  | newFile (e : FileEntry)
  | updated (e : FileEntry)
  | unchanged
deriving DecidableEq

/-- Per-path decision of `incremental_update` (lines 941-973): a path absent
from the indexed paths is new; a cached path is re-recorded when the size
differs or the modification time differs by more than 1 second. -/
def classifyVisit (db : List FileEntry) (w : WalkFile) : VisitClass :=
  match dbFind db w.path with
  | none => .newFile (mkEntry w)
  | some c =>
    if w.size ≠ c.size ∨ 1 < (w.modified - c.modified).natAbs then .updated (mkEntry w)
    else .unchanged

/-- Accumulator of the incremental walk: observed `existing_paths` (as an
ordered list), `new_files`, `updated_files`. -/
structure IncAcc where
  existing : List String
  newRecs : List FileEntry
  updRecs : List FileEntry
deriving DecidableEq

/-- File loop of `incremental_update` over one directory's files: the flag is
read at the top of each iteration (`break` on stop). -/
def incFilesLoop (σ : Nat → Bool) (db : List FileEntry) :
    List WalkFile → Nat → IncAcc → IncAcc × Nat
  | [], t, acc => (acc, t)
  | w :: rest, t, acc =>
    if σ t then (acc, t+1)
    else
      let ex' := acc.existing ++ [w.path]
      match classifyVisit db w with
      | .newFile e => incFilesLoop σ db rest (t+1) ⟨ex', acc.newRecs ++ [e], acc.updRecs⟩
      | .updated e => incFilesLoop σ db rest (t+1) ⟨ex', acc.newRecs, acc.updRecs ++ [e]⟩
      | .unchanged => incFilesLoop σ db rest (t+1) ⟨ex', acc.newRecs, acc.updRecs⟩

/-- Directory loop of `incremental_update` (one flag read per `os.walk`
triple; a stop inside the file loop falls back here and the next directory
check, if any, reads the flag again). -/
def incDirsLoop (σ : Nat → Bool) (db : List FileEntry) :
    List (List WalkFile) → Nat → IncAcc → IncAcc × Nat
  | [], t, acc => (acc, t)
  | d :: rest, t, acc =>
    if σ t then (acc, t+1)
    else
      let (acc', t') := incFilesLoop σ db d (t+1) acc
      incDirsLoop σ db rest t' acc'

/-- Drive loop of `incremental_update` (one flag read per drive). -/
def incDrivesLoop (σ : Nat → Bool) (db : List FileEntry) :
    List (List (List WalkFile)) → Nat → IncAcc → IncAcc × Nat
  | [], t, acc => (acc, t)
  | dv :: rest, t, acc =>
    if σ t then (acc, t+1)
    else
      let (acc', t') := incDirsLoop σ db dv (t+1) acc
      incDrivesLoop σ db rest t' acc'

/-- `DatabaseManager.save_file_index` for one record: INSERT OR REPLACE by
path. -/
def upsertEntry : List FileEntry → FileEntry → List FileEntry
  | [], e => [e]
  | x :: rest, e => if x.path == e.path then e :: rest else x :: upsertEntry rest e

/-- `DatabaseManager.save_file_index` for a batch. -/
def saveBatchDb (db : List FileEntry) (batch : List FileEntry) : List FileEntry :=
  batch.foldl upsertEntry db

/-- Result of an `incremental_update` run. -/
structure IncResult where
  existing : List String
  newRecs : List FileEntry
  updRecs : List FileEntry
  finalDb : List FileEntry
  completed : Bool
  ticks : Nat
deriving DecidableEq

/-- `SystemIndexerThread.incremental_update` under a flag schedule: walk (with
cooperative checks), then — unconditionally, stopped or not — save the new
and updated batches and prune every stored path not observed during the walk
(`remove_deleted_files(existing_paths)`); `indexing_complete` is emitted only
when the final flag read is false. -/
def incremental_update (σ : Nat → Bool) (db : List FileEntry)
    (drives : List (List (List WalkFile))) : IncResult :=
  let (acc, t) := incDrivesLoop σ db drives 0 ⟨[], [], []⟩
  let db1 := saveBatchDb db acc.newRecs
  let db2 := saveBatchDb db1 acc.updRecs
  let db3 := db2.filter (fun e => acc.existing.contains e.path)
  ⟨acc.existing, acc.newRecs, acc.updRecs, db3, !σ t, t + 1⟩

/-- The never-set flag schedule (a run that is not cancelled). -/
def flagNever : Nat → Bool := fun _ => false

/-- C3: during an incremental scan, a cached visited path is re-recorded iff
its size differs from the cached size or its mtime differs from the cached
mtime by more than 1 second, and is otherwise a no-op; an uncached visited
path is always recorded as new; and a completed single-file scan persists
exactly the record that classification produces (nothing for an unchanged
path). -/
theorem incremental_change_detection (db : List FileEntry) (w : WalkFile) :
    (∀ c, dbFind db w.path = some c →
      ((classifyVisit db w = VisitClass.updated (mkEntry w))
          ↔ (w.size ≠ c.size ∨ 1 < (w.modified - c.modified).natAbs))
      ∧ ((classifyVisit db w = VisitClass.unchanged)
          ↔ (w.size = c.size ∧ (w.modified - c.modified).natAbs ≤ 1)))
    ∧ (dbFind db w.path = none → classifyVisit db w = VisitClass.newFile (mkEntry w))
    ∧ ((incremental_update flagNever db [[[w]]]).newRecs
          ++ (incremental_update flagNever db [[[w]]]).updRecs
        = match classifyVisit db w with
          | VisitClass.newFile e => [e]
          | VisitClass.updated e => [e]
          | VisitClass.unchanged => []) := by
  refine ⟨?_, ?_, ?_⟩
  · intro c hc
    simp only [classifyVisit, hc]
    by_cases hcond : w.size ≠ c.size ∨ 1 < (w.modified - c.modified).natAbs
    · rw [if_pos hcond]
      constructor
      · exact ⟨fun _ => hcond, fun _ => rfl⟩
      · constructor
        · intro he; cases he
        · intro hu; omega
    · rw [if_neg hcond]
      constructor
      · constructor
        · intro he; cases he
        · intro h; exact absurd h hcond
      · exact ⟨fun _ => by omega, fun _ => rfl⟩
  · intro hn
    simp only [classifyVisit, hn]
  · cases hcl : classifyVisit db w with
    | newFile e =>
      simp [incremental_update, incDrivesLoop, incDirsLoop, incFilesLoop, flagNever, hcl]
    | updated e =>
      simp [incremental_update, incDrivesLoop, incDirsLoop, incFilesLoop, flagNever, hcl]
    | unchanged =>
      simp [incremental_update, incDrivesLoop, incDirsLoop, incFilesLoop, flagNever, hcl]

/-- Cached record for the C3 witness. -/
def cachedC3 : FileEntry :=
  { name := "a.txt", path := "/a.txt", extension := ".txt"
    size := 5, modified := 100, is_dir := false }

/-- Visit for the C3 witness: same path, size changed from 5 to 7. -/
def visitC3 : WalkFile := { name := "a.txt", path := "/a.txt", size := 7, modified := 100 }

/-- Witness for C3: a cached path whose size changed is re-recorded. -/
theorem incremental_change_detection_witness :
    classifyVisit [cachedC3] visitC3 = VisitClass.updated (mkEntry visitC3) :=
  ((incremental_change_detection [cachedC3] visitC3).1 cachedC3 (by decide)).1.mpr
    (by decide)

/-! ### Pruning after cancellation (C10) -/

theorem classifyVisit_newFile_eq {db : List FileEntry} {w : WalkFile} {e : FileEntry}
    (h : classifyVisit db w = VisitClass.newFile e) : e = mkEntry w := by
  cases hf : dbFind db w.path with
  | none =>
    simp only [classifyVisit, hf] at h
    exact (VisitClass.newFile.injEq _ _ ▸ h).symm
  | some c =>
    simp only [classifyVisit, hf] at h
    by_cases hcond : w.size ≠ c.size ∨ 1 < (w.modified - c.modified).natAbs
    · rw [if_pos hcond] at h; cases h
    · rw [if_neg hcond] at h; cases h

theorem classifyVisit_updated_eq {db : List FileEntry} {w : WalkFile} {e : FileEntry}
    (h : classifyVisit db w = VisitClass.updated e) : e = mkEntry w := by
  cases hf : dbFind db w.path with
  | none =>
    simp only [classifyVisit, hf] at h; cases h
  | some c =>
    simp only [classifyVisit, hf] at h
    by_cases hcond : w.size ≠ c.size ∨ 1 < (w.modified - c.modified).natAbs
    · rw [if_pos hcond] at h
      exact (VisitClass.updated.injEq _ _ ▸ h).symm
    · rw [if_neg hcond] at h; cases h

/-- Every collected new/updated record's path was observed in `existing`. -/
def AccOk (acc : IncAcc) : Prop :=
  ∀ e ∈ acc.newRecs ++ acc.updRecs, e.path ∈ acc.existing

theorem incFilesLoop_accOk (σ : Nat → Bool) (db : List FileEntry) :
    ∀ (fs : List WalkFile) (t : Nat) (acc : IncAcc),
      AccOk acc → AccOk (incFilesLoop σ db fs t acc).1 := by
  intro fs
  induction fs with
  | nil =>
    intro t acc h
    simpa [incFilesLoop] using h
  | cons w rest ih =>
    intro t acc h
    by_cases hσ : σ t
    · simpa [incFilesLoop, hσ] using h
    · have hext : ∀ e ∈ acc.newRecs ++ acc.updRecs,
          e.path ∈ acc.existing ++ [w.path] :=
        fun e he => List.mem_append_left _ (h e he)
      have hw : w.path ∈ acc.existing ++ [w.path] :=
        List.mem_append_right _ (List.mem_singleton.mpr rfl)
      cases hcl : classifyVisit db w with
      | newFile e0 =>
        have he0 : e0.path = w.path := by rw [classifyVisit_newFile_eq hcl]; rfl
        simp only [incFilesLoop, hσ, Bool.false_eq_true, if_false, hcl]
        apply ih
        intro e he
        rcases List.mem_append.mp he with hn | hu
        · rcases List.mem_append.mp hn with hn' | hn'
          · exact hext e (List.mem_append_left _ hn')
          · simp only [List.mem_singleton] at hn'
            subst hn'
            exact he0 ▸ hw
        · exact hext e (List.mem_append_right _ hu)
      | updated e0 =>
        have he0 : e0.path = w.path := by rw [classifyVisit_updated_eq hcl]; rfl
        simp only [incFilesLoop, hσ, Bool.false_eq_true, if_false, hcl]
        apply ih
        intro e he
        rcases List.mem_append.mp he with hn | hu
        · exact hext e (List.mem_append_left _ hn)
        · rcases List.mem_append.mp hu with hu' | hu'
          · exact hext e (List.mem_append_right _ hu')
          · simp only [List.mem_singleton] at hu'
            subst hu'
            exact he0 ▸ hw
      | unchanged =>
        simp only [incFilesLoop, hσ, Bool.false_eq_true, if_false, hcl]
        apply ih
        intro e he
        exact hext e he

theorem incDirsLoop_accOk (σ : Nat → Bool) (db : List FileEntry) :
    ∀ (ds : List (List WalkFile)) (t : Nat) (acc : IncAcc),
      AccOk acc → AccOk (incDirsLoop σ db ds t acc).1 := by
  intro ds
  induction ds with
  | nil =>
    intro t acc h
    simpa [incDirsLoop] using h
  | cons d rest ih =>
    intro t acc h
    by_cases hσ : σ t
    · simpa [incDirsLoop, hσ] using h
    · simp only [incDirsLoop, hσ, Bool.false_eq_true, if_false]
      cases hfl : incFilesLoop σ db d (t+1) acc with
      | mk acc' t' =>
        have := incFilesLoop_accOk σ db d (t+1) acc h
        rw [hfl] at this
        exact ih t' acc' this

theorem incDrivesLoop_accOk (σ : Nat → Bool) (db : List FileEntry) :
    ∀ (dvs : List (List (List WalkFile))) (t : Nat) (acc : IncAcc),
      AccOk acc → AccOk (incDrivesLoop σ db dvs t acc).1 := by
  intro dvs
  induction dvs with
  | nil =>
    intro t acc h
    simpa [incDrivesLoop] using h
  | cons dv rest ih =>
    intro t acc h
    by_cases hσ : σ t
    · simpa [incDrivesLoop, hσ] using h
    · simp only [incDrivesLoop, hσ, Bool.false_eq_true, if_false]
      cases hdl : incDirsLoop σ db dv (t+1) acc with
      | mk acc' t' =>
        have := incDirsLoop_accOk σ db dv (t+1) acc h
        rw [hdl] at this
        exact ih t' acc' this

theorem upsertEntry_path_self (db : List FileEntry) (e : FileEntry) :
    ∃ x ∈ upsertEntry db e, x.path = e.path := by
  induction db with
  | nil => exact ⟨e, List.mem_singleton.mpr rfl, rfl⟩
  | cons x rest ih =>
    simp only [upsertEntry]
    by_cases hx : (x.path == e.path) = true
    · rw [if_pos hx]
      exact ⟨e, List.mem_cons_self _ _, rfl⟩
    · rw [if_neg hx]
      rcases ih with ⟨y, hy, hp⟩
      exact ⟨y, List.mem_cons_of_mem _ hy, hp⟩

theorem upsertEntry_path_mono (db : List FileEntry) (e : FileEntry) {p : String}
    (h : ∃ x ∈ db, x.path = p) : ∃ x ∈ upsertEntry db e, x.path = p := by
  induction db with
  | nil =>
    rcases h with ⟨y, hy, _⟩
    exact absurd hy (List.not_mem_nil y)
  | cons x rest ih =>
    rcases h with ⟨y, hy, hp⟩
    simp only [upsertEntry]
    by_cases hx : (x.path == e.path) = true
    · rw [if_pos hx]
      rcases List.mem_cons.mp hy with rfl | hy'
      · exact ⟨e, List.mem_cons_self _ _, (eq_of_beq hx) ▸ hp⟩
      · exact ⟨y, List.mem_cons_of_mem _ hy', hp⟩
    · rw [if_neg hx]
      rcases List.mem_cons.mp hy with rfl | hy'
      · exact ⟨y, List.mem_cons_self _ _, hp⟩
      · rcases ih ⟨y, hy', hp⟩ with ⟨z, hz, hzp⟩
        exact ⟨z, List.mem_cons_of_mem _ hz, hzp⟩

theorem saveBatchDb_path_mono (batch : List FileEntry) :
    ∀ (db : List FileEntry) {p : String},
      (∃ x ∈ db, x.path = p) → ∃ x ∈ saveBatchDb db batch, x.path = p := by
  induction batch with
  | nil =>
    intro db p h
    simpa [saveBatchDb] using h
  | cons b rest ih =>
    intro db p h
    simp only [saveBatchDb, List.foldl_cons]
    exact ih (upsertEntry db b) (upsertEntry_path_mono db b h)

theorem saveBatchDb_path_self (batch : List FileEntry) :
    ∀ (db : List FileEntry) {e : FileEntry}, e ∈ batch →
      ∃ x ∈ saveBatchDb db batch, x.path = e.path := by
  induction batch with
  | nil =>
    intro db e he
    exact absurd he (List.not_mem_nil e)
  | cons b rest ih =>
    intro db e he
    simp only [saveBatchDb, List.foldl_cons]
    rcases List.mem_cons.mp he with rfl | he'
    · exact saveBatchDb_path_mono rest (upsertEntry db e) (upsertEntry_path_self db e)
    · exact ih (upsertEntry db b) he'

/-- C10: however the flag schedule stops an incremental scan, the pruning
step runs against exactly the observed paths — every stored record whose path
was not observed is absent from the final store — while all collected new and
updated records have their paths persisted in the final store. -/
theorem prune_after_cancel (σ : Nat → Bool) (db : List FileEntry)
    (drives : List (List (List WalkFile))) :
    (∀ e ∈ db, (incremental_update σ db drives).existing.contains e.path = false →
       ∀ x ∈ (incremental_update σ db drives).finalDb, x.path ≠ e.path)
    ∧ (∀ e ∈ (incremental_update σ db drives).newRecs
            ++ (incremental_update σ db drives).updRecs,
       ∃ x ∈ (incremental_update σ db drives).finalDb, x.path = e.path) := by
  cases hpr : incDrivesLoop σ db drives 0 ⟨[], [], []⟩ with
  | mk acc t =>
    have hok : AccOk acc := by
      have h0 : AccOk (⟨[], [], []⟩ : IncAcc) := by
        intro e he
        exact absurd he (List.not_mem_nil e)
      have := incDrivesLoop_accOk σ db drives 0 ⟨[], [], []⟩ h0
      rw [hpr] at this
      exact this
    simp only [incremental_update, hpr]
    constructor
    · intro e _ hnc x hx hxe
      have hxc := (List.mem_filter.mp hx).2
      rw [hxe] at hxc
      rw [hnc] at hxc
      cases hxc
    · intro e he
      have hpathex : e.path ∈ acc.existing := hok e he
      have hdb2 : ∃ x ∈ saveBatchDb (saveBatchDb db acc.newRecs) acc.updRecs,
          x.path = e.path := by
        rcases List.mem_append.mp he with hn | hu
        · exact saveBatchDb_path_mono acc.updRecs _
            (saveBatchDb_path_self acc.newRecs db hn)
        · exact saveBatchDb_path_self acc.updRecs _ hu
      rcases hdb2 with ⟨x, hx, hxp⟩
      refine ⟨x, List.mem_filter.mpr ⟨hx, ?_⟩, hxp⟩
      rw [hxp]
      exact List.elem_eq_true_of_mem hpathex

/-- Stored records for the C10 witness: `/a` and `/b` are cached. -/
def entryA10 : FileEntry :=
  { name := "a", path := "/a", extension := "", size := 1, modified := 0, is_dir := false }

/-- The cached record whose path is not reached before cancellation. -/
def entryB10 : FileEntry :=
  { name := "b", path := "/b", extension := "", size := 1, modified := 0, is_dir := false }

/-- C10 witness store. -/
def db10 : List FileEntry := [entryA10, entryB10]

/-- C10 witness walk: one drive, one directory, files `/a` then `/b`. -/
def drives10 : List (List (List WalkFile)) :=
  [[[ { name := "a", path := "/a", size := 1, modified := 0 }
    , { name := "b", path := "/b", size := 1, modified := 0 } ]]]

/-- Flag schedule for the C10 witness: the stop flag is set from the fourth
check on, i.e. after `/a` was visited but before `/b` is reached. -/
def sigStop3 : Nat → Bool := fun t => decide (3 ≤ t)

/-- Witness for C10: the scan is cancelled after visiting `/a`; `/b` is not
observed, and although the walk still contains it, `/b` is pruned from the
final store and the scan never completes. -/
theorem prune_after_cancel_witness :
    (incremental_update sigStop3 db10 drives10).existing.contains "/b" = false
    ∧ (∀ x ∈ (incremental_update sigStop3 db10 drives10).finalDb, x.path ≠ "/b")
    ∧ (incremental_update sigStop3 db10 drives10).completed = false :=
  ⟨by decide,
   (prune_after_cancel sigStop3 db10 drives10).1 entryB10 (by decide) (by decide),
   by decide⟩

/-! ## Cooperative cancellation (C9)

The three scan loops (SystemIndexerThread.full_index, lines 837-899;
FastDuplicateScannerThread.run, lines 1082-1143; DeepDuplicateScannerThread.run,
lines 1199-1275) read `self.should_stop` at the top of every drive, directory
and file iteration, and emit their completion signal only after one final read
returns false.  Reads are modelled by a schedule `σ : Nat → Bool` giving the
value of the n-th read; reads happen at consecutive ticks 0, 1, 2, ….  The
flag is only ever set (never cleared), so schedules of interest are monotone.
`full_index` uses `break` at each loop level (an inner stop falls back to the
enclosing loop, whose next iteration, if any, reads the flag again), while the
two duplicate scanners `return` directly from the innermost loop. -/

/-- A flag schedule that, once set, stays set (the `stop()` method only ever
writes `True`). -/
def MonoFlag (σ : Nat → Bool) : Prop :=
  ∀ i j, i ≤ j → σ i = true → σ j = true

/-- Outcome of a modelled scan: the enumerated files, the number of flag reads
performed, and whether the completion signal was emitted. -/
structure ScanOut where
  files : List String
  ticks : Nat
  completed : Bool
deriving DecidableEq

/-- File loop of `full_index` (break style): one flag read per file visit. -/
def ffFilesLoop (σ : Nat → Bool) : List String → Nat → List String → List String × Nat
  | [], t, acc => (acc, t)
  | f :: rest, t, acc =>
    if σ t then (acc, t+1)
    else ffFilesLoop σ rest (t+1) (acc ++ [f])

/-- Directory loop of `full_index` (break style): one flag read per `os.walk`
triple; after a file-level break the next directory iteration reads again. -/
def ffDirsLoop (σ : Nat → Bool) : List (List String) → Nat → List String → List String × Nat
  | [], t, acc => (acc, t)
  | d :: rest, t, acc =>
    if σ t then (acc, t+1)
    else
      match ffFilesLoop σ d (t+1) acc with
      | (acc', t') => ffDirsLoop σ rest t' acc'

/-- Drive loop of `full_index` (break style). -/
def ffDrivesLoop (σ : Nat → Bool) :
    List (List (List String)) → Nat → List String → List String × Nat
  | [], t, acc => (acc, t)
  | dv :: rest, t, acc =>
    if σ t then (acc, t+1)
    else
      match ffDirsLoop σ dv (t+1) acc with
      | (acc', t') => ffDrivesLoop σ rest t' acc'

/-- `SystemIndexerThread.full_index` loop skeleton: walk all drives, then emit
`indexing_complete` only if a final flag read returns false. -/
def fullIndexRun (σ : Nat → Bool) (drives : List (List (List String))) : ScanOut :=
  match ffDrivesLoop σ drives 0 [] with
  | (acc, t) => ⟨acc, t+1, !σ t⟩

/-- File loop of the duplicate scanners (return style): a read of true exits
the whole run. -/
def fsFilesLoop (σ : Nat → Bool) :
    List String → Nat → List String → List String × Nat × Bool
  | [], t, acc => (acc, t, false)
  | f :: rest, t, acc =>
    if σ t then (acc, t+1, true)
    else fsFilesLoop σ rest (t+1) (acc ++ [f])

/-- Directory loop of the duplicate scanners (return style). -/
def fsDirsLoop (σ : Nat → Bool) :
    List (List String) → Nat → List String → List String × Nat × Bool
  | [], t, acc => (acc, t, false)
  | d :: rest, t, acc =>
    if σ t then (acc, t+1, true)
    else
      match fsFilesLoop σ d (t+1) acc with
      | (acc', t', true) => (acc', t', true)
      | (acc', t', false) => fsDirsLoop σ rest t' acc'

/-- `FastDuplicateScannerThread.run` loop skeleton: walk the tree; on a stop
read the run returns without emitting `scan_complete`; otherwise one final
read guards the completion signal. -/
def fastScanRun (σ : Nat → Bool) (dirs : List (List String)) : ScanOut :=
  match fsDirsLoop σ dirs 0 [] with
  | (acc, t, true) => ⟨acc, t, false⟩
  | (acc, t, false) => ⟨acc, t+1, !σ t⟩

/-- Phase-2 hashing loop of the deep scanner: one flag read per candidate. -/
def hashLoopC9 (σ : Nat → Bool) : List String → Nat → Nat × Bool
  | [], t => (t, false)
  | _ :: rest, t =>
    if σ t then (t+1, true) else hashLoopC9 σ rest (t+1)

/-- `DeepDuplicateScannerThread.run` loop skeleton: phase 1 walks the tree
(return style), phase 2 reads the flag once per hashed candidate (the
candidates with a size-bucket of at least two members), then one final read
guards `scan_complete`. -/
def deepScanC9 (σ : Nat → Bool) (dirs : List (List String)) (sz : String → Nat) :
    ScanOut :=
  match fsDirsLoop σ dirs 0 [] with
  | (acc, t, true) => ⟨acc, t, false⟩
  | (acc, t, false) =>
    match hashLoopC9 σ (filesToHash acc sz) t with
    | (t2, true) => ⟨acc, t2, false⟩
    | (t2, false) => ⟨acc, t2+1, !σ t2⟩

theorem ffFilesLoop_gain {σ : Nat → Bool} {k : Nat}
    (hm : MonoFlag σ) (hk : σ k = true) :
    ∀ (fs : List String) (t : Nat) (acc : List String),
      (ffFilesLoop σ fs t acc).1.length + min t k
        ≤ acc.length + min (ffFilesLoop σ fs t acc).2 k := by
  intro fs
  induction fs with
  | nil =>
    intro t acc
    simp [ffFilesLoop]
  | cons f rest ih =>
    intro t acc
    by_cases hσ : σ t
    · simp only [ffFilesLoop, hσ, if_true]
      omega
    · have ht : t < k := by
        rcases Nat.lt_or_ge t k with h | h
        · exact h
        · exact absurd (hm k t h hk) hσ
      simp only [ffFilesLoop, hσ, Bool.false_eq_true, if_false]
      have h2 := ih (t+1) (acc ++ [f])
      rw [List.length_append, List.length_singleton] at h2
      omega

theorem ffDirsLoop_gain {σ : Nat → Bool} {k : Nat}
    (hm : MonoFlag σ) (hk : σ k = true) :
    ∀ (ds : List (List String)) (t : Nat) (acc : List String),
      (ffDirsLoop σ ds t acc).1.length + min t k
        ≤ acc.length + min (ffDirsLoop σ ds t acc).2 k := by
  intro ds
  induction ds with
  | nil =>
    intro t acc
    simp [ffDirsLoop]
  | cons d rest ih =>
    intro t acc
    by_cases hσ : σ t
    · simp only [ffDirsLoop, hσ, if_true]
      omega
    · have ht : t < k := by
        rcases Nat.lt_or_ge t k with h | h
        · exact h
        · exact absurd (hm k t h hk) hσ
      simp only [ffDirsLoop, hσ, Bool.false_eq_true, if_false]
      cases h1 : ffFilesLoop σ d (t+1) acc with
      | mk acc1 t1 =>
        have hinner := ffFilesLoop_gain hm hk d (t+1) acc
        rw [h1] at hinner
        have houter := ih t1 acc1
        dsimp only at hinner houter ⊢
        omega

theorem ffDrivesLoop_gain {σ : Nat → Bool} {k : Nat}
    (hm : MonoFlag σ) (hk : σ k = true) :
    ∀ (dvs : List (List (List String))) (t : Nat) (acc : List String),
      (ffDrivesLoop σ dvs t acc).1.length + min t k
        ≤ acc.length + min (ffDrivesLoop σ dvs t acc).2 k := by
  intro dvs
  induction dvs with
  | nil =>
    intro t acc
    simp [ffDrivesLoop]
  | cons dv rest ih =>
    intro t acc
    by_cases hσ : σ t
    · simp only [ffDrivesLoop, hσ, if_true]
      omega
    · have ht : t < k := by
        rcases Nat.lt_or_ge t k with h | h
        · exact h
        · exact absurd (hm k t h hk) hσ
      simp only [ffDrivesLoop, hσ, Bool.false_eq_true, if_false]
      cases h1 : ffDirsLoop σ dv (t+1) acc with
      | mk acc1 t1 =>
        have hinner := ffDirsLoop_gain hm hk dv (t+1) acc
        rw [h1] at hinner
        have houter := ih t1 acc1
        dsimp only at hinner houter ⊢
        omega

theorem fsFilesLoop_gain {σ : Nat → Bool} {k : Nat}
    (hm : MonoFlag σ) (hk : σ k = true) :
    ∀ (fs : List String) (t : Nat) (acc : List String),
      (fsFilesLoop σ fs t acc).1.length + min t k
        ≤ acc.length + min (fsFilesLoop σ fs t acc).2.1 k := by
  intro fs
  induction fs with
  | nil =>
    intro t acc
    simp [fsFilesLoop]
  | cons f rest ih =>
    intro t acc
    by_cases hσ : σ t
    · simp only [fsFilesLoop, hσ, if_true]
      omega
    · have ht : t < k := by
        rcases Nat.lt_or_ge t k with h | h
        · exact h
        · exact absurd (hm k t h hk) hσ
      simp only [fsFilesLoop, hσ, Bool.false_eq_true, if_false]
      have h2 := ih (t+1) (acc ++ [f])
      rw [List.length_append, List.length_singleton] at h2
      omega

theorem fsDirsLoop_gain {σ : Nat → Bool} {k : Nat}
    (hm : MonoFlag σ) (hk : σ k = true) :
    ∀ (ds : List (List String)) (t : Nat) (acc : List String),
      (fsDirsLoop σ ds t acc).1.length + min t k
        ≤ acc.length + min (fsDirsLoop σ ds t acc).2.1 k := by
  intro ds
  induction ds with
  | nil =>
    intro t acc
    simp [fsDirsLoop]
  | cons d rest ih =>
    intro t acc
    by_cases hσ : σ t
    · simp only [fsDirsLoop, hσ, if_true]
      omega
    · have ht : t < k := by
        rcases Nat.lt_or_ge t k with h | h
        · exact h
        · exact absurd (hm k t h hk) hσ
      simp only [fsDirsLoop, hσ, Bool.false_eq_true, if_false]
      cases h1 : fsFilesLoop σ d (t+1) acc with
      | mk acc1 rest1 =>
        have hinner := fsFilesLoop_gain hm hk d (t+1) acc
        rw [h1] at hinner
        cases rest1 with
        | mk t1 stopped1 =>
          cases stopped1 with
          | true =>
            dsimp only at hinner ⊢
            omega
          | false =>
            have houter := ih t1 acc1
            dsimp only at hinner houter ⊢
            omega

/-- C9: for each of the three scan loops, under a monotone flag schedule with
the flag set at read `k`: if the flag was set before the run's final read
(`k < ticks`), the completion signal is never emitted (the task ends
cancelled, not complete); and at most `k` files are ever enumerated, since
every file visit is preceded by its own flag read — so enumeration stops
within one file-visit step of the flag being set. -/
theorem cancellation_stops_scans (σ : Nat → Bool) (k : Nat)
    (hm : MonoFlag σ) (hk : σ k = true)
    (drives : List (List (List String))) (dirs dirs2 : List (List String))
    (sz : String → Nat) :
    ((k < (fullIndexRun σ drives).ticks → (fullIndexRun σ drives).completed = false)
      ∧ (fullIndexRun σ drives).files.length ≤ k)
    ∧ ((k < (fastScanRun σ dirs).ticks → (fastScanRun σ dirs).completed = false)
      ∧ (fastScanRun σ dirs).files.length ≤ k)
    ∧ ((k < (deepScanC9 σ dirs2 sz).ticks → (deepScanC9 σ dirs2 sz).completed = false)
      ∧ (deepScanC9 σ dirs2 sz).files.length ≤ k) := by
  refine ⟨?_, ?_, ?_⟩
  · cases h1 : ffDrivesLoop σ drives 0 [] with
    | mk acc t =>
      have hg := ffDrivesLoop_gain hm hk drives 0 []
      rw [h1] at hg
      simp only [fullIndexRun, h1]
      dsimp only at hg ⊢
      simp only [List.length_nil] at hg
      constructor
      · intro hlt
        have : σ t = true := hm k t (by omega) hk
        simp [this]
      · omega
  · cases h1 : fsDirsLoop σ dirs 0 [] with
    | mk acc rest1 =>
      have hg := fsDirsLoop_gain hm hk dirs 0 []
      rw [h1] at hg
      cases rest1 with
      | mk t stopped =>
        cases stopped with
        | true =>
          simp only [fastScanRun, h1]
          dsimp only at hg ⊢
          simp only [List.length_nil] at hg
          constructor
          · intro _; trivial
          · omega
        | false =>
          simp only [fastScanRun, h1]
          dsimp only at hg ⊢
          simp only [List.length_nil] at hg
          constructor
          · intro hlt
            have : σ t = true := hm k t (by omega) hk
            simp [this]
          · omega
  · cases h1 : fsDirsLoop σ dirs2 0 [] with
    | mk acc rest1 =>
      have hg := fsDirsLoop_gain hm hk dirs2 0 []
      rw [h1] at hg
      cases rest1 with
      | mk t stopped =>
        cases stopped with
        | true =>
          simp only [deepScanC9, h1]
          dsimp only at hg ⊢
          simp only [List.length_nil] at hg
          constructor
          · intro _; trivial
          · omega
        | false =>
          simp only [deepScanC9, h1]
          cases h2 : hashLoopC9 σ (filesToHash acc sz) t with
          | mk t2 stopped2 =>
            cases stopped2 with
            | true =>
              simp only [h2]
              dsimp only at hg ⊢
              simp only [List.length_nil] at hg
              constructor
              · intro _; trivial
              · omega
            | false =>
              simp only [h2]
              dsimp only at hg ⊢
              simp only [List.length_nil] at hg
              constructor
              · intro hlt
                have : σ t2 = true := hm k t2 (by omega) hk
                simp [this]
              · omega

/-- Flag schedule for the C9 witness: the flag is set from the second read on. -/
def sigStop1 : Nat → Bool := fun t => decide (1 ≤ t)

/-- Witness for C9: with the flag set from read 1 on, each of the three scans
over a three-file directory enumerates at most one file and never completes. -/
theorem cancellation_stops_scans_witness :
    ((fullIndexRun sigStop1 [[["a", "b", "c"]]]).files.length ≤ 1
      ∧ (fullIndexRun sigStop1 [[["a", "b", "c"]]]).completed = false)
    ∧ ((fastScanRun sigStop1 [["a", "b", "c"]]).files.length ≤ 1
      ∧ (fastScanRun sigStop1 [["a", "b", "c"]]).completed = false)
    ∧ ((deepScanC9 sigStop1 [["a", "b", "c"]] (fun _ => 1)).files.length ≤ 1
      ∧ (deepScanC9 sigStop1 [["a", "b", "c"]] (fun _ => 1)).completed = false) := by
  have hmono : MonoFlag sigStop1 := by
    intro i j hij hi
    simp only [sigStop1, decide_eq_true_eq] at hi ⊢
    omega
  have h := cancellation_stops_scans sigStop1 1 hmono (by decide)
    [[["a", "b", "c"]]] [["a", "b", "c"]] [["a", "b", "c"]] (fun _ => 1)
  refine ⟨⟨h.1.2, h.1.1 (by decide)⟩, ⟨h.2.1.2, h.2.1.1 (by decide)⟩,
    ⟨h.2.2.2, h.2.2.1 (by decide)⟩⟩

end FileScope
